import Mathlib

/-!
Verification of the readdir-precache system against its specification.

The development shallowly embeds the C sources:
  * `src/libprecache.c`   — the interposer FSM over directory handles;
  * `src/encfs_mapper.c`  — the overlay (encfs) path resolver and its tables;
  * `src/segments.c`, `src/precache.c` — extent enumeration, sorting, the CLI.

C strings (byte arrays up to the terminating NUL) are modelled as `List Char`;
all path predicates below mirror the C byte-by-byte tests.  The filesystem and
the `/proc` process table are explicit parameters, so every syscall outcome
(`statfs`, `lstat`, `getdents64`, reading a cmdline) is data of the model.
-/

/-- C strings are byte sequences; we model them as lists of characters. -/
abbrev CStr := List Char

/-- `strdup_and_trim_slashes` (encfs_mapper.c): duplicate a string and chop
every trailing `'/'`.  Modelled as dropping the trailing run of slashes. -/
def strdup_and_trim_slashes (s : CStr) : CStr :=
  (s.reverse.dropWhile (fun c => c = '/')).reverse

/-- Position of the last `'/'` in the string, as `memrchr` computes it. -/
def lastSlashIdx (s : CStr) : Option Nat :=
  (List.range s.length).reverse.find? (fun i => s.get? i = some '/')

/-- Path concatenation as `find_inode_in_dir` builds it with
`utstring_printf("%s%s%s", path, path_ends_with_slash ? "" : "/", name)`. -/
def joinPath (path name : CStr) : CStr :=
  if path ≠ [] ∧ path.getLast? = some '/' then path ++ name
  else path ++ '/' :: name

/-! ## Interposer FSM (src/libprecache.c) -/

/-- `enum readdir_tracker_state` (libprecache.c:46-56). -/
inductive RdtState where
  | start
  | readdir1_open0
  | readdir1_open1
  | readdir2_open1
  | readdir2_open2
  | readdir3_open2
  | do_precaching
  | skip
deriving DecidableEq, Repr

/-- The `switch (dstate->fsm_state)` in `readdir` (libprecache.c:412-435):
state advance on one surfaced (non-dot) directory entry. -/
def readdir_fsm_step : RdtState → RdtState
  | .start => .readdir1_open0
  | .readdir1_open0 => .skip
  | .readdir1_open1 => .readdir2_open1
  | .readdir2_open1 => .skip
  | .readdir2_open2 => .readdir3_open2
  | .readdir3_open2 => .skip
  | .do_precaching => .do_precaching
  | .skip => .skip

/-- The `switch (it->fsm_state)` in `handle_openat` (libprecache.c:539-562):
state advance on an open whose path matches the tracked directory. -/
def openat_fsm_step : RdtState → RdtState
  | .start => .skip
  | .readdir1_open0 => .readdir1_open1
  | .readdir1_open1 => .skip
  | .readdir2_open1 => .readdir2_open2
  | .readdir2_open2 => .skip
  | .readdir3_open2 => .do_precaching
  | .do_precaching => .do_precaching
  | .skip => .skip

/-- The match test of `handle_openat` (libprecache.c:531-534):
`fname_len > dirname_len + 1 && strncmp(fname, dirname, dirname_len) == 0 &&
strchr(fname + dirname_len + 1, '/') == NULL`.  The byte at position
`dirname_len` (the path separator slot) is skipped by the scan. -/
def openat_path_matches (dirname fname : CStr) : Bool :=
  decide (fname.length > dirname.length + 1) &&
  dirname.isPrefixOf fname &&
  !((fname.drop (dirname.length + 1)).contains '/')

/-- Per-handle directory state, `struct dirp_to_state_mapping`
(libprecache.c:63-71).  The handle identity (`DIR *dirp`) is the position of
the record in the table; `current_dirent` is modelled as a cursor index into
the materialized entry list. -/
structure DirState where
  dirname : CStr
  dirent_list : List CStr
  current_dirent : Nat
  cached_files_count : Nat
  fsm_state : RdtState
deriving DecidableEq, Repr

/-- `AT_FDCWD` on Linux. -/
def AT_FDCWD : Int := -100

/-- The mount-entry scan loop of `handle_openat` (libprecache.c:525-569):
walk the handle table, advance the FSM of the FIRST handle whose directory
name matches the opened path, then `break`. -/
def handle_openat_scan (fname : CStr) : List DirState → List DirState
  | [] => []
  | d :: rest =>
    if openat_path_matches d.dirname fname then
      { d with fsm_state := openat_fsm_step d.fsm_state } :: rest
    else
      d :: handle_openat_scan fname rest

/-- `handle_openat` (libprecache.c:516-570): intercepted `openat` bookkeeping.
When `atfd != AT_FDCWD` the function returns at once and no state changes. -/
def handle_openat (atfd : Int) (fname : CStr) (hs : List DirState) :
    List DirState :=
  if atfd ≠ AT_FDCWD then hs else handle_openat_scan fname hs

/-- The interposed `open` (libprecache.c:594-602) forwards to
`do_openat(real_openat, AT_FDCWD, fname, ...)`, whose bookkeeping is
`handle_openat(AT_FDCWD, fname)`. -/
def open_intercept_bookkeeping (fname : CStr) (hs : List DirState) :
    List DirState :=
  handle_openat AT_FDCWD fname hs

theorem handle_openat_scan_length (fname : CStr) (hs : List DirState) :
    (handle_openat_scan fname hs).length = hs.length := by
  induction hs with
  | nil => rfl
  | cons d rest ih =>
    simp only [handle_openat_scan]
    split <;> simp [ih]

/-- Handles whose directory name does not match the opened path are returned
unchanged by the scan, position by position. -/
theorem handle_openat_scan_nonmatching (fname : CStr) (hs : List DirState) :
    List.Forall₂
      (fun d d' => openat_path_matches d.dirname fname = false → d' = d)
      hs (handle_openat_scan fname hs) := by
  induction hs with
  | nil => exact List.Forall₂.nil
  | cons d rest ih =>
    simp only [handle_openat_scan]
    split
    next h =>
      exact List.Forall₂.cons (fun hf => by simp [hf] at h)
        (List.forall₂_same.mpr (fun x _ _ => rfl))
    next h =>
      exact List.Forall₂.cons (fun _ => rfl) ih

/-- C3: the per-handle FSM follows exactly the specified transition table:
read-entry takes start→r1/o0, r1/o1→r2/o1, r2/o2→r3/o2 and r1/o0, r2/o1,
r3/o2 → skip; a matching open takes r1/o0→r1/o1, r2/o1→r2/o2, r3/o2→precache
and start, r1/o1, r2/o2 → skip; `precache` and `skip` absorb; and an open
whose path does not match a tracked directory (begin with the directory name
and contain no `'/'` past the separator slot, per `openat_path_matches`)
leaves that handle's state unchanged. -/
theorem C3_fsm_transition_table :
    (readdir_fsm_step .start = .readdir1_open0 ∧
     readdir_fsm_step .readdir1_open0 = .skip ∧
     readdir_fsm_step .readdir1_open1 = .readdir2_open1 ∧
     readdir_fsm_step .readdir2_open1 = .skip ∧
     readdir_fsm_step .readdir2_open2 = .readdir3_open2 ∧
     readdir_fsm_step .readdir3_open2 = .skip ∧
     readdir_fsm_step .do_precaching = .do_precaching ∧
     readdir_fsm_step .skip = .skip) ∧
    (openat_fsm_step .start = .skip ∧
     openat_fsm_step .readdir1_open0 = .readdir1_open1 ∧
     openat_fsm_step .readdir1_open1 = .skip ∧
     openat_fsm_step .readdir2_open1 = .readdir2_open2 ∧
     openat_fsm_step .readdir2_open2 = .skip ∧
     openat_fsm_step .readdir3_open2 = .do_precaching ∧
     openat_fsm_step .do_precaching = .do_precaching ∧
     openat_fsm_step .skip = .skip) ∧
    (∀ fname : CStr, ∀ hs : List DirState,
      List.Forall₂
        (fun d d' => openat_path_matches d.dirname fname = false → d' = d)
        hs (handle_openat_scan fname hs)) := by
  refine ⟨⟨rfl, rfl, rfl, rfl, rfl, rfl, rfl, rfl⟩,
          ⟨rfl, rfl, rfl, rfl, rfl, rfl, rfl, rfl⟩, ?_⟩
  exact fun fname hs => handle_openat_scan_nonmatching fname hs

/-- C10: an intercepted `openat` whose directory descriptor differs from
`AT_FDCWD` changes no per-handle state at all (the whole table is returned
untouched), and the interposed `open`'s bookkeeping is exactly
`handle_openat` at `AT_FDCWD`. -/
theorem C10_openat_non_cwd_frame (atfd : Int) (fname : CStr)
    (hs : List DirState) (h : atfd ≠ AT_FDCWD) :
    handle_openat atfd fname hs = hs ∧
    open_intercept_bookkeeping fname hs = handle_openat AT_FDCWD fname hs := by
  constructor
  · simp [handle_openat, h]
  · rfl

/-- Witness for C10 at a concrete descriptor and table. -/
theorem C10_openat_non_cwd_frame_witness :
    handle_openat 3 ['a'] [⟨['d'], [], 0, 0, .start⟩] =
      [⟨['d'], [], 0, 0, .start⟩] :=
  (C10_openat_non_cwd_frame 3 ['a'] [⟨['d'], [], 0, 0, .start⟩]
    (by decide)).1

/-! ## Extent engine (src/segments.c, src/precache.c, src/libprecache.c) -/

/-- One extent record returned by the `FS_IOC_FIEMAP` ioctl
(`struct fiemap_extent`, restricted to the fields the program reads). -/
structure FiemapExtent where
  fe_logical : Nat
  fe_length : Nat
  fe_physical : Nat
  fe_last : Bool
deriving DecidableEq, Repr

/-- `struct segment` (segments.h / precache.c:24-30). -/
structure Segment where
  file_name : CStr
  physical_pos : Nat
  file_offset : Nat
  extent_length : Nat
deriving DecidableEq, Repr

/-- The clip block of `enumerate_file_segments` (segments.c:63-67): reduce
`fe_length` to fit the file size, but only when `fe_logical <= st_size`. -/
def clipExtent (st_size : Nat) (e : FiemapExtent) : FiemapExtent :=
  if e.fe_logical ≤ st_size then
    if e.fe_logical + e.fe_length > st_size then
      { e with fe_length := st_size - e.fe_logical }
    else e
  else e

/-- The inner `for` loop over one ioctl reply (segments.c:56-77): advance
`pos`, latch `last_extent_seen`, clip, and append one segment per extent. -/
def processFiemapBatch (fname : CStr) (st_size : Nat)
    (exts : List FiemapExtent) (pos : Nat) (lastSeen : Bool)
    (segs : List Segment) : List Segment × Nat × Bool :=
  match exts with
  | [] => (segs, pos, lastSeen)
  | e :: rest =>
    let pos' := e.fe_logical + e.fe_length
    let lastSeen' := lastSeen || e.fe_last
    let e' := clipExtent st_size e
    let seg : Segment :=
      { file_name := fname
        physical_pos := e'.fe_physical
        file_offset := e'.fe_logical
        extent_length := e'.fe_length }
    processFiemapBatch fname st_size rest pos' lastSeen' (segs ++ [seg])

/-- The `while (pos < st_size && !last_extent_seen)` loop of
`enumerate_file_segments` (segments.c:45-81).  `query pos` models the ioctl
reply for a fiemap request starting at logical offset `pos`
(`none` = ioctl failure).  `fuel` bounds the number of round-trips; the C
loop re-queries until the last-extent flag or the file size is reached. -/
def enumerate_loop (query : Nat → Option (List FiemapExtent)) (fname : CStr)
    (st_size : Nat) : Nat → Nat → Bool → List Segment → List Segment
  | 0, _, _, segs => segs
  | fuel + 1, pos, lastSeen, segs =>
    if pos < st_size ∧ lastSeen = false then
      match query pos with
      | none => segs
      | some exts =>
        let (segs', pos', lastSeen') :=
          processFiemapBatch fname st_size exts pos lastSeen segs
        enumerate_loop query fname st_size fuel pos' lastSeen' segs'
    else segs

/-- `enumerate_file_segments` (segments.c:16-90), extent-mapping part: the
file has been resolved, opened and `fstat`ed to size `st_size`. -/
def enumerate_file_segments (query : Nat → Option (List FiemapExtent))
    (fname : CStr) (st_size : Nat) (fuel : Nat) : List Segment :=
  enumerate_loop query fname st_size fuel 0 false []

/-- Does every emitted segment stay inside a file of size `st_size`? -/
def allSegmentsClipped (st_size : Nat) (segs : List Segment) : Bool :=
  segs.all (fun s => s.file_offset + s.extent_length ≤ st_size)

/-- A fiemap oracle whose single reply holds one extent that starts beyond
the end of the file (a preallocated post-EOF extent): logical 200, length 50,
on a file of size 100. -/
def postEofQuery : Nat → Option (List FiemapExtent) :=
  fun _ => some [⟨200, 50, 0, true⟩]

/-- C5 counterexample: an extent whose logical start (200) lies beyond the
file size (100) is emitted without any clipping, so the emitted segment ends
at 250 > 100.  The guard `if (ext->fe_logical <= st_size)` skips the clip
entirely for such extents. -/
theorem C5_extent_clipping_counterexample :
    allSegmentsClipped 100
      (enumerate_file_segments postEofQuery ['f'] 100 2) = false := by
  decide

theorem clipExtent_logical (st_size : Nat) (e : FiemapExtent) :
    (clipExtent st_size e).fe_logical = e.fe_logical := by
  unfold clipExtent
  split <;> [skip; rfl]
  split <;> rfl

theorem clipExtent_bounded (st_size : Nat) (e : FiemapExtent)
    (h : e.fe_logical ≤ st_size) :
    (clipExtent st_size e).fe_logical + (clipExtent st_size e).fe_length
      ≤ st_size := by
  unfold clipExtent
  rw [if_pos h]
  split
  · simpa using by omega
  · next h2 => simpa using by omega

theorem processFiemapBatch_clipped (fname : CStr) (st_size : Nat)
    (exts : List FiemapExtent) (pos : Nat) (lastSeen : Bool)
    (segs : List Segment) :
    ∀ s ∈ (processFiemapBatch fname st_size exts pos lastSeen segs).1,
      s ∈ segs ∨ (s.file_offset ≤ st_size →
        s.file_offset + s.extent_length ≤ st_size) := by
  induction exts generalizing pos lastSeen segs with
  | nil => intro s hs; exact Or.inl hs
  | cons e rest ih =>
    intro s hs
    rcases ih _ _ _ s hs with h | h
    · rcases List.mem_append.mp h with h' | h'
      · exact Or.inl h'
      · refine Or.inr (fun hle => ?_)
        have hs' := List.mem_singleton.mp h'
        subst hs'
        simp only at hle ⊢
        rw [clipExtent_logical] at hle
        exact clipExtent_bounded st_size e hle
    · exact Or.inr h

theorem enumerate_loop_clipped (query : Nat → Option (List FiemapExtent))
    (fname : CStr) (st_size : Nat) (fuel pos : Nat) (lastSeen : Bool)
    (segs : List Segment)
    (hsegs : ∀ s ∈ segs, s.file_offset ≤ st_size →
      s.file_offset + s.extent_length ≤ st_size) :
    ∀ s ∈ enumerate_loop query fname st_size fuel pos lastSeen segs,
      s.file_offset ≤ st_size → s.file_offset + s.extent_length ≤ st_size := by
  induction fuel generalizing pos lastSeen segs with
  | zero => exact hsegs
  | succ fuel ih =>
    simp only [enumerate_loop]
    split
    · cases hq : query pos with
      | none => exact hsegs
      | some exts =>
        simp only []
        refine ih _ _ _ (fun s hs hle => ?_)
        rcases processFiemapBatch_clipped fname st_size exts pos lastSeen
          segs s hs with h | h
        · exact hsegs s h hle
        · exact h hle
    · exact hsegs

/-- C5 amended: every segment emitted by extent enumeration whose logical
start lies at or before the file size satisfies
`file_offset + extent_length <= st_size` (such extents are clipped down to
the exact file length); extents whose logical start exceeds the file size
are appended with no clipping at all. -/
theorem C5_extent_clipping_amended (query : Nat → Option (List FiemapExtent))
    (fname : CStr) (st_size fuel : Nat) :
    ∀ s ∈ enumerate_file_segments query fname st_size fuel,
      s.file_offset ≤ st_size → s.file_offset + s.extent_length ≤ st_size := by
  exact enumerate_loop_clipped query fname st_size fuel 0 false []
    (fun s hs => absurd hs (List.not_mem_nil s))

/-- Witness for C5 amended: a size-100 file with one extent covering
[0,150) gets clipped to length 100, and the emitted segment fits the file. -/
theorem C5_extent_clipping_amended_witness :
    (⟨['g'], 7, 0, 100⟩ : Segment).file_offset +
      (⟨['g'], 7, 0, 100⟩ : Segment).extent_length ≤ 100 :=
  C5_extent_clipping_amended (fun _ => some [⟨0, 150, 7, true⟩]) ['g'] 100 2
    ⟨['g'], 7, 0, 100⟩ (by decide) (by decide)

/-- `segment_comparator` (precache.c:32-41, also segments.h): `-1` when the
first physical position is smaller, else the value of `a > b` (1 or 0). -/
def segment_comparator (a b : Segment) : Int :=
  if a.physical_pos < b.physical_pos then -1
  else if a.physical_pos > b.physical_pos then 1 else 0

/-- `sort_array_comparator` (libprecache.c:189-198): same ordering on the
`struct sort_array_entry` records, which carry the same fields. -/
def sort_array_comparator (a b : Segment) : Int :=
  if a.physical_pos < b.physical_pos then -1
  else if a.physical_pos > b.physical_pos then 1 else 0

/-- `DL_SORT(segments, segment_comparator)` (precache.c:238): utlist's list
sort is a merge sort driven by the comparator; elements compare
less-or-equal when the comparator is non-positive. -/
def DL_SORT (l : List Segment) : List Segment :=
  l.mergeSort (fun a b => decide (segment_comparator a b ≤ 0))

/-- `utarray_sort(&sort_array, sort_array_comparator)` (libprecache.c:327):
the array sort with the same comparator, modelled the same way. -/
def utarray_sort (l : List Segment) : List Segment :=
  l.mergeSort (fun a b => decide (sort_array_comparator a b ≤ 0))

theorem segment_comparator_le (a b : Segment) :
    (segment_comparator a b ≤ 0) ↔ a.physical_pos ≤ b.physical_pos := by
  unfold segment_comparator
  split
  · next h => simp; omega
  · split
    · next _ h => simp; omega
    · next h h' => simp; omega

/-- C6: after sorting, the final read order is non-decreasing in physical
offset, for both the standalone CLI's list sort and the library's array
sort: every pair of consecutive segments satisfies
`physical_pos ≤ physical_pos`. -/
theorem C6_sorted_read_order (l : List Segment) :
    List.Chain' (fun a b => a.physical_pos ≤ b.physical_pos) (DL_SORT l) ∧
    List.Chain' (fun a b => a.physical_pos ≤ b.physical_pos)
      (utarray_sort l) := by
  have htrans : ∀ a b c : Segment,
      decide (segment_comparator a b ≤ 0) = true →
      decide (segment_comparator b c ≤ 0) = true →
      decide (segment_comparator a c ≤ 0) = true := by
    intro a b c hab hbc
    rw [decide_eq_true_iff, segment_comparator_le] at *
    omega
  have htotal : ∀ a b : Segment,
      (decide (segment_comparator a b ≤ 0) ||
       decide (segment_comparator b a ≤ 0)) = true := by
    intro a b
    rcases Nat.le_total a.physical_pos b.physical_pos with h | h
    · simp [decide_eq_true_iff, segment_comparator_le, h]
    · simp [decide_eq_true_iff, segment_comparator_le, h]
  have hpair := List.sorted_mergeSort htrans htotal l
  have hpair' : List.Pairwise
      (fun a b : Segment => a.physical_pos ≤ b.physical_pos)
      (DL_SORT l) := by
    refine hpair.imp ?_
    intro a b h
    rw [decide_eq_true_iff, segment_comparator_le] at h
    exact h
  refine ⟨hpair'.chain', ?_⟩
  have : utarray_sort l = DL_SORT l := rfl
  rw [this]
  exact hpair'.chain'

/-! ## Standalone CLI `precache` (src/precache.c) -/

/-- The argument walk of `main` (precache.c:229-234): the paths handed to
`enumerate_file_segments` are exactly `argv[1] .. argv[argc-1]`, in order.
`main` consults no other input source. -/
def precache_main_enumerated_paths (argv : List CStr) : List CStr :=
  argv.drop 1

/-- Modelled from the spec ("if standard input is not a terminal, each line
is treated as an additional file path appended to the list"): the path list
the specification describes, for comparison with the source's. -/
def spec_precache_input_paths (argv : List CStr) (stdin_is_tty : Bool)
    (stdin_lines : List CStr) : List CStr :=
  argv.drop 1 ++ (if stdin_is_tty then [] else stdin_lines)

/-- C9 counterexample: with `argv = ["precache", "a"]` and a non-terminal
standard input holding the single line `"b"`, the CLI enumerates only
`["a"]`, not the `["a", "b"]` the claim requires — `main` never reads
standard input. -/
theorem C9_stdin_counterexample :
    precache_main_enumerated_paths [['p'], ['a']] ≠
      spec_precache_input_paths [['p'], ['a']] false [['b']] := by
  decide

/-- C9 amended: the standalone `precache` CLI enumerates exactly its
positional-argument paths, in order; standard input is never consulted, so
the CLI behaves as the spec describes only in the terminal-stdin case. -/
theorem C9_positional_paths_only (argv : List CStr)
    (stdin_lines : List CStr) :
    precache_main_enumerated_paths argv =
      spec_precache_input_paths argv true stdin_lines := by
  simp [precache_main_enumerated_paths, spec_precache_input_paths]

/-! ## Mount-refresh throttle (encfs_mapper.c:306-335) -/

/-- The FUSE filesystem magic (`FUSE_SUPER_MAGIC`, encfs_mapper.c:27). -/
def FUSE_SUPER_MAGIC : Int := 0x65735546

/-- The persistent `static struct timespec last_checked` of
`encfs_mapper_refresh_mounts`; only `tv_sec` is ever compared. -/
structure ThrottleState where
  last_sec : Int
deriving DecidableEq, Repr

/-- Outcome of one `encfs_mapper_refresh_mounts` call. -/
inductive RefreshOutcome where
  | skippedSameSec   -- `now.tv_sec == last_checked.tv_sec`: return 0, no work
  | errStatfs        -- statfs on the context path failed: return -1
  | skippedNotFuse   -- context path not on a FUSE filesystem: return 0
  | scanned          -- `do_refresh_mounts()` ran
deriving DecidableEq, Repr

/-- `encfs_mapper_refresh_mounts` (encfs_mapper.c:306-335), with the
wall-clock second of the call and the `statfs` reply for the context path
(`none` = failure, `some t` = success with `f_type = t`) as inputs.  The
clock read itself is assumed to succeed (on failure the C returns -1 with no
state change and no scan, outside every clause of the claim). -/
def encfs_mapper_refresh_mounts_step (now_sec : Int)
    (statfs_res : Option Int) (st : ThrottleState) :
    RefreshOutcome × ThrottleState :=
  if now_sec = st.last_sec then
    (.skippedSameSec, st)
  else
    let st' : ThrottleState := ⟨now_sec⟩
    match statfs_res with
    | none => (.errStatfs, st')
    | some t =>
      if t ≠ FUSE_SUPER_MAGIC then (.skippedNotFuse, st')
      else (.scanned, st')

/-- Run a sequence of `maybe-refresh-mounts` calls; each trace element is
(wall-clock second, statfs reply for that call's context path). -/
def runRefreshCalls (st : ThrottleState) :
    List (Int × Option Int) → List RefreshOutcome
  | [] => []
  | (sec, sf) :: rest =>
    (encfs_mapper_refresh_mounts_step sec sf st).1 ::
      runRefreshCalls (encfs_mapper_refresh_mounts_step sec sf st).2 rest

/-- Number of calls in the outcome trace that ran a scan at second `s`. -/
def scansAtSec (s : Int) :
    List (Int × Option Int) → List RefreshOutcome → Nat
  | (sec, _) :: rest, out :: outs =>
    (if sec = s ∧ out = .scanned then 1 else 0) + scansAtSec s rest outs
  | _, _ => 0

theorem refresh_step_sets_last (now_sec : Int) (sf : Option Int)
    (st : ThrottleState) :
    (encfs_mapper_refresh_mounts_step now_sec sf st).2.last_sec = now_sec := by
  unfold encfs_mapper_refresh_mounts_step
  split
  · next h => simpa using h.symm
  · cases sf with
    | none => rfl
    | some t =>
      simp only []
      split <;> rfl

theorem refresh_step_same_sec (sf : Option Int) (st : ThrottleState) :
    encfs_mapper_refresh_mounts_step st.last_sec sf st =
      (.skippedSameSec, st) := by
  unfold encfs_mapper_refresh_mounts_step
  rw [if_pos rfl]

/-- A trace none of whose calls happens at second `s` contributes no scan at
second `s`, whatever the starting state. -/
theorem scansAtSec_none (s : Int) (tr : List (Int × Option Int))
    (h : ∀ q ∈ tr, q.1 ≠ s) (st : ThrottleState) :
    scansAtSec s tr (runRefreshCalls st tr) = 0 := by
  induction tr generalizing st with
  | nil => rfl
  | cons q rs ih =>
    obtain ⟨qsec, qsf⟩ := q
    have hq : qsec ≠ s := h (qsec, qsf) (List.mem_cons_self _ _)
    simp only [runRefreshCalls, scansAtSec, hq, false_and, if_false,
      zero_add]
    exact ih (fun r hr => h r (List.mem_cons_of_mem _ hr)) _

/-- Once the remembered second equals `s`, a non-decreasing trace whose
calls all happen at seconds `≥ s` never scans at second `s` again. -/
theorem runRefreshCalls_no_scan_at (s : Int) (st : ThrottleState)
    (tr : List (Int × Option Int)) (hlast : st.last_sec = s)
    (hmono : ∀ p ∈ tr, s ≤ p.1)
    (hsorted : List.Pairwise (fun p q => p.1 ≤ q.1) tr) :
    scansAtSec s tr (runRefreshCalls st tr) = 0 := by
  induction tr generalizing st with
  | nil => rfl
  | cons p rest ih =>
    obtain ⟨sec, sf⟩ := p
    by_cases hsec : sec = s
    · subst hsec
      have hstep := refresh_step_same_sec sf st
      rw [hlast] at hstep
      simp only [runRefreshCalls, scansAtSec, hstep]
      have := ih st hlast (fun q hq => hmono q (List.mem_cons_of_mem _ hq))
        (List.Pairwise.sublist (List.sublist_cons_self _ _) hsorted)
      simp only [this, add_zero]
      simp
    · have hrest : ∀ q ∈ rest, q.1 ≠ s := by
        intro q hq
        have hs1 : s ≤ sec := hmono (sec, sf) (List.mem_cons_self _ _)
        have hs2 : sec ≤ q.1 := (List.pairwise_cons.mp hsorted).1 q hq
        intro hcontra
        apply hsec
        omega
      simp only [runRefreshCalls, scansAtSec, hsec, false_and, if_false,
        zero_add]
      exact scansAtSec_none s rest hrest _

/-- C7: (1) immediately after any `maybe-refresh-mounts` call at wall-clock
second `sec`, a second call at the same second returns at once with outcome
`skippedSameSec` — no process-table rescan and no state change — regardless
of its context path's statfs reply; (2) over any sequence of calls whose
wall-clock seconds are non-decreasing, at most one call per wall-clock
second runs a rescan. -/
theorem C7_refresh_throttled :
    (∀ (st : ThrottleState) (sec : Int) (sf1 sf2 : Option Int),
      encfs_mapper_refresh_mounts_step sec sf2
          (encfs_mapper_refresh_mounts_step sec sf1 st).2 =
        (.skippedSameSec, (encfs_mapper_refresh_mounts_step sec sf1 st).2)) ∧
    (∀ (st : ThrottleState) (tr : List (Int × Option Int)),
      List.Pairwise (fun p q => p.1 ≤ q.1) tr →
      ∀ s : Int, scansAtSec s tr (runRefreshCalls st tr) ≤ 1) := by
  constructor
  · intro st sec sf1 sf2
    have hl := refresh_step_sets_last sec sf1 st
    have h := refresh_step_same_sec sf2
      (encfs_mapper_refresh_mounts_step sec sf1 st).2
    rw [hl] at h
    exact h
  · intro st tr
    induction tr generalizing st with
    | nil => intro _ s; exact Nat.zero_le 1
    | cons p rest ih =>
      intro hsorted s
      obtain ⟨sec, sf⟩ := p
      have hsorted' := List.pairwise_cons.mp hsorted
      simp only [runRefreshCalls, scansAtSec]
      by_cases hs : sec = s ∧
          (encfs_mapper_refresh_mounts_step sec sf st).1 = .scanned
      · rw [if_pos hs]
        have h0 : scansAtSec s rest
            (runRefreshCalls
              (encfs_mapper_refresh_mounts_step sec sf st).2 rest) = 0 := by
          apply runRefreshCalls_no_scan_at
          · rw [refresh_step_sets_last]; exact hs.1
          · intro q hq
            rw [← hs.1]
            exact hsorted'.1 q hq
          · exact hsorted'.2
        omega
      · rw [if_neg hs]
        have := ih (encfs_mapper_refresh_mounts_step sec sf st).2
          hsorted'.2 s
        omega

/-- Witness for C7: two same-second calls (second with a failing statfs),
and a concrete two-call trace at the same second. -/
theorem C7_refresh_throttled_witness :
    encfs_mapper_refresh_mounts_step 5 none
        (encfs_mapper_refresh_mounts_step 5 (some FUSE_SUPER_MAGIC) ⟨0⟩).2 =
      (.skippedSameSec,
        (encfs_mapper_refresh_mounts_step 5 (some FUSE_SUPER_MAGIC) ⟨0⟩).2) ∧
    scansAtSec 5 [(5, some FUSE_SUPER_MAGIC), (5, some FUSE_SUPER_MAGIC)]
      (runRefreshCalls ⟨0⟩
        [(5, some FUSE_SUPER_MAGIC), (5, some FUSE_SUPER_MAGIC)]) ≤ 1 :=
  ⟨C7_refresh_throttled.1 ⟨0⟩ 5 (some FUSE_SUPER_MAGIC) none,
   C7_refresh_throttled.2 ⟨0⟩
     [(5, some FUSE_SUPER_MAGIC), (5, some FUSE_SUPER_MAGIC)]
     (by decide) 5⟩

/-! ## Overlay resolver tables (src/encfs_mapper.c) -/

/-- `struct front_to_back_mapping` (encfs_mapper.c:43-49): one mount entry. -/
structure MountEntry where
  encfs_front : CStr
  encfs_back : CStr
  encfs_pid : Nat
  pending_removal : Bool
deriving DecidableEq, Repr

/-- `struct inode_to_path_mapping` (encfs_mapper.c:37-41). -/
structure InodeMapping where
  inode : Nat
  path : CStr
deriving DecidableEq, Repr

/-- The two process-wide tables (`front_to_back_map`, `inode_to_path_map`,
encfs_mapper.c:51-52).  uthash tables iterate in insertion order; they are
modelled as lists with find-first, delete-first and append. -/
structure MapperState where
  front_to_back_map : List MountEntry
  inode_to_path_map : List InodeMapping
deriving DecidableEq, Repr

/-- The membership test of `remove_inode_to_path_mappings_for_path`
(encfs_mapper.c:146-150): `it_path_len >= back_path_len && strncmp(it->path,
back_path, back_path_len) == 0 && (it->path[back_path_len] == '/' ||
it->path[back_path_len] == '\0')`. -/
def isInsideBackPath (back p : CStr) : Bool :=
  back.isPrefixOf p &&
  (decide (p.length = back.length) || p.get? back.length == some '/')

/-- `remove_inode_to_path_mappings_for_path` (encfs_mapper.c:140-157):
delete every inode-cache entry whose stored path lies inside `back`. -/
def remove_inode_to_path_mappings_for_path (back : CStr)
    (m : List InodeMapping) : List InodeMapping :=
  m.filter (fun it => !(isInsideBackPath back it.path))

/-- `HASH_FIND_STR(front_to_back_map, front, m)`: first entry keyed by the
overlay root `front`. -/
def find_front_mapping (front : CStr) (l : List MountEntry) :
    Option MountEntry :=
  l.find? (fun m => m.encfs_front == front)

/-- In-place `m->pending_removal = false` on the entry keyed `front`
(encfs_mapper.c:192). -/
def clear_pending_first (front : CStr) : List MountEntry → List MountEntry
  | [] => []
  | m :: rest =>
    if m.encfs_front == front then { m with pending_removal := false } :: rest
    else m :: clear_pending_first front rest

/-- `HASH_DEL` of the entry keyed `front` (encfs_mapper.c:198). -/
def remove_first_front (front : CStr) : List MountEntry → List MountEntry
  | [] => []
  | m :: rest =>
    if m.encfs_front == front then rest
    else m :: remove_first_front front rest

/-- The table update of `process_encfs_mount` once back/front are parsed and
slash-trimmed (encfs_mapper.c:187-212): same pid → clear the pending flag;
different pid → purge the old entry's backing subtree from the inode cache,
delete it and append a fresh entry; unknown front → append a fresh entry. -/
def update_mount_entry (back front : CStr) (pid : Nat) (st : MapperState) :
    MapperState :=
  match find_front_mapping front st.front_to_back_map with
  | some m =>
    if m.encfs_pid = pid then
      { st with front_to_back_map :=
          clear_pending_first front st.front_to_back_map }
    else
      { front_to_back_map :=
          remove_first_front front st.front_to_back_map ++
            [⟨front, back, pid, false⟩]
        inode_to_path_map :=
          remove_inode_to_path_mappings_for_path m.encfs_back
            st.inode_to_path_map }
  | none =>
    { st with front_to_back_map :=
        st.front_to_back_map ++ [⟨front, back, pid, false⟩] }

/-- Argument scan of `process_encfs_mount` (encfs_mapper.c:165-185): skip
the first NUL-separated field, take the first two fields not beginning with
`'-'` as (backing dir, overlay dir), trim trailing slashes.  The cmdline
blob is modelled as its list of NUL-separated fields. -/
def process_encfs_mount (cmdline : List CStr) (pid : Nat)
    (st : MapperState) : MapperState :=
  match (cmdline.drop 1).filter (fun a => a.head? ≠ some '-') with
  | d0 :: d1 :: _ =>
    update_mount_entry (strdup_and_trim_slashes d0)
      (strdup_and_trim_slashes d1) pid st
  | _ => st

/-- One `/proc` directory entry together with the contents of its
`cmdline` pseudo-file (`none` when `file_get_contents` fails). -/
structure ProcEntry where
  d_type_dir : Bool
  d_name : CStr
  cmdline : Option (List CStr)
deriving DecidableEq, Repr

/-- `isdigit` on the first byte of the entry name (encfs_mapper.c:257). -/
def isDigitChar (c : Char) : Bool := decide ('0' ≤ c ∧ c ≤ '9')

/-- `atol(de->d_name)` for the digit-initial names the scan admits. -/
def atol_nat (s : CStr) : Nat :=
  (s.takeWhile isDigitChar).foldl
    (fun n c => n * 10 + (c.toNat - '0'.toNat)) 0

/-- Per-dirent body of the `/proc` scan loop (encfs_mapper.c:253-275):
directories with digit-initial names whose cmdline reads successfully and
whose first field is exactly `"encfs"` feed `process_encfs_mount`. -/
def refresh_scan_step (st : MapperState) (de : ProcEntry) : MapperState :=
  if de.d_type_dir ∧ (de.d_name.head?.elim false isDigitChar) = true then
    match de.cmdline with
    | none => st
    | some args =>
      if args.head? = some ['e', 'n', 'c', 'f', 's'] then
        process_encfs_mount args (atol_nat de.d_name) st
      else st
  else st

/-- `it->pending_removal = true` for every entry (encfs_mapper.c:231-235). -/
def mark_all_pending (l : List MountEntry) : List MountEntry :=
  l.map (fun m => { m with pending_removal := true })

/-- The end-of-refresh sweep (encfs_mapper.c:278-287): delete every entry
still pending removal and purge its backing subtree from the inode cache,
in table order. -/
def purge_pending :
    List MountEntry → List InodeMapping → List MountEntry × List InodeMapping
  | [], ic => ([], ic)
  | m :: rest, ic =>
    if m.pending_removal then
      purge_pending rest
        (remove_inode_to_path_mappings_for_path m.encfs_back ic)
    else
      let r := purge_pending rest ic
      (m :: r.1, r.2)

/-- `do_refresh_mounts` (encfs_mapper.c:221-298) on a given snapshot of the
`/proc` table: mark all entries pending, scan the snapshot, then sweep. -/
def do_refresh_mounts (proc : List ProcEntry) (st : MapperState) :
    MapperState :=
  let st2 := proc.foldl refresh_scan_step
    { st with front_to_back_map := mark_all_pending st.front_to_back_map }
  let r := purge_pending st2.front_to_back_map st2.inode_to_path_map
  { front_to_back_map := r.1, inode_to_path_map := r.2 }

theorem remove_inode_mappings_removes (back : CStr)
    (ic : List InodeMapping) :
    ∀ e ∈ remove_inode_to_path_mappings_for_path back ic,
      isInsideBackPath back e.path = false := by
  intro e he
  have := (List.mem_filter.mp he).2
  simpa using this

theorem remove_inode_mappings_subset (back : CStr)
    (ic : List InodeMapping) :
    ∀ e ∈ remove_inode_to_path_mappings_for_path back ic, e ∈ ic :=
  fun _ he => (List.mem_filter.mp he).1

theorem purge_pending_icache_subset (ms : List MountEntry)
    (ic : List InodeMapping) :
    ∀ e ∈ (purge_pending ms ic).2, e ∈ ic := by
  induction ms generalizing ic with
  | nil => intro e he; exact he
  | cons m rest ih =>
    intro e he
    simp only [purge_pending] at he
    split at he
    · exact remove_inode_mappings_subset _ _ e (ih _ e he)
    · exact ih _ e he

/-- C4: inode-cache invalidation accompanies every retirement of a mount
entry: (1) after the end-of-refresh sweep, for every entry that was still
pending removal, no surviving inode-cache record's stored path equals its
backing root or lies strictly under it; (2) when `process_encfs_mount`
replaces an entry because the same overlay root reappeared under a different
pid, no inode-cache record under the replaced entry's backing root
survives. -/
theorem C4_invalidation_on_retirement :
    (∀ (ms : List MountEntry) (ic : List InodeMapping) (m : MountEntry),
      m ∈ ms → m.pending_removal = true →
      ∀ e ∈ (purge_pending ms ic).2,
        isInsideBackPath m.encfs_back e.path = false) ∧
    (∀ (st : MapperState) (back front : CStr) (pid : Nat) (m : MountEntry),
      find_front_mapping front st.front_to_back_map = some m →
      m.encfs_pid ≠ pid →
      ∀ e ∈ (update_mount_entry back front pid st).inode_to_path_map,
        isInsideBackPath m.encfs_back e.path = false) := by
  constructor
  · intro ms
    induction ms with
    | nil => intro ic m hm; exact absurd hm (List.not_mem_nil m)
    | cons m0 rest ih =>
      intro ic m hm hp e he
      simp only [purge_pending] at he
      rcases List.mem_cons.mp hm with h | h
      · subst h
        rw [if_pos hp] at he
        have hsub := purge_pending_icache_subset rest _ e he
        exact remove_inode_mappings_removes _ _ e hsub
      · by_cases hp0 : m0.pending_removal
        · rw [if_pos hp0] at he
          exact ih _ m h hp e he
        · rw [if_neg hp0] at he
          exact ih _ m h hp e he
  · intro st back front pid m hfind hpid e he
    simp only [update_mount_entry, hfind, if_neg hpid] at he
    exact remove_inode_mappings_removes _ _ e he

/-- Witness for C4: a one-entry pending table whose backing root `/b` has a
cached descendant `/b/x`, and a replacement of front `/m` (pid 1 → 2). -/
theorem C4_invalidation_on_retirement_witness :
    (∀ e ∈ (purge_pending [⟨['m'], ['b'], 1, true⟩]
        [⟨7, ['b', '/', 'x']⟩]).2,
      isInsideBackPath ['b'] e.path = false) ∧
    (∀ e ∈ (update_mount_entry ['c'] ['m'] 2
        ⟨[⟨['m'], ['b'], 1, false⟩], [⟨7, ['b', '/', 'x']⟩]⟩).inode_to_path_map,
      isInsideBackPath ['b'] e.path = false) :=
  ⟨C4_invalidation_on_retirement.1 [⟨['m'], ['b'], 1, true⟩]
      [⟨7, ['b', '/', 'x']⟩] ⟨['m'], ['b'], 1, true⟩
      (List.mem_singleton.mpr rfl) rfl,
   C4_invalidation_on_retirement.2
      ⟨[⟨['m'], ['b'], 1, false⟩], [⟨7, ['b', '/', 'x']⟩]⟩ ['c'] ['m'] 2
      ⟨['m'], ['b'], 1, false⟩ (by decide) (by decide)⟩

/-! ### Mount-refresh idempotence (C8) infrastructure

The refresh is analysed per overlay root: `parsedMountOf` captures which
(back, front, pid) triple a `/proc` entry contributes, `occsOf f` the
sub-sequence of contributions keyed by front `f`, and `foldOccs` the effect
of those contributions on the (unique) entry keyed `f`. -/

/-- The (backing dir, overlay dir, pid) triple a `/proc` dirent contributes
to the scan, if any: directory, digit-initial name, readable cmdline whose
first field is `"encfs"` and which names two non-option directories. -/
def parsedMountOf (de : ProcEntry) : Option (CStr × CStr × Nat) :=
  if de.d_type_dir ∧ (de.d_name.head?.elim false isDigitChar) = true then
    match de.cmdline with
    | none => none
    | some args =>
      if args.head? = some ['e', 'n', 'c', 'f', 's'] then
        match (args.drop 1).filter (fun a => a.head? ≠ some '-') with
        | d0 :: d1 :: _ =>
          some (strdup_and_trim_slashes d0, strdup_and_trim_slashes d1,
            atol_nat de.d_name)
        | _ => none
      else none
  else none

theorem refresh_scan_step_eq (st : MapperState) (de : ProcEntry) :
    refresh_scan_step st de =
      match parsedMountOf de with
      | some (b, f, p) => update_mount_entry b f p st
      | none => st := by
  unfold refresh_scan_step parsedMountOf process_encfs_mount
  split
  · cases de.cmdline with
    | none => rfl
    | some args =>
      simp only []
      split
      · cases hfl : (args.drop 1).filter (fun a => a.head? ≠ some '-') with
        | nil => simp [hfl]
        | cons d0 tl =>
          cases tl with
          | nil => simp [hfl]
          | cons d1 tl2 => simp [hfl]
      · rfl
  · rfl

/-- `pending_removal := true` on one entry. -/
def markP (m : MountEntry) : MountEntry := { m with pending_removal := true }

/-- Effect of one scan contribution (back, pid) on the entry keyed by a
fixed front: clear pending when the pid matches, else replace. -/
def stepOcc (f : CStr) (o : CStr × Nat) (c : Option MountEntry) :
    MountEntry :=
  match c with
  | some m =>
    if m.encfs_pid = o.2 then { m with pending_removal := false }
    else ⟨f, o.1, o.2, false⟩
  | none => ⟨f, o.1, o.2, false⟩

def foldOccs (f : CStr) (os : List (CStr × Nat)) (c : Option MountEntry) :
    Option MountEntry :=
  os.foldl (fun c o => some (stepOcc f o c)) c

/-- The scan contributions keyed by front `f`, in scan order. -/
def occsOf (f : CStr) (proc : List ProcEntry) : List (CStr × Nat) :=
  proc.filterMap (fun de => (parsedMountOf de).bind
    (fun t => if t.2.1 = f then some (t.1, t.2.2) else none))

def frontsOf (l : List MountEntry) : List CStr :=
  l.map MountEntry.encfs_front

/-- Effect of the end-of-refresh sweep on one looked-up entry. -/
def purgeStep : Option MountEntry → Option MountEntry
  | some m => if m.pending_removal then none else some m
  | none => none

theorem find_front_clear_pending_other (f front : CStr) (h : f ≠ front)
    (l : List MountEntry) :
    find_front_mapping f (clear_pending_first front l) =
      find_front_mapping f l := by
  induction l with
  | nil => rfl
  | cons m rest ih =>
    simp only [clear_pending_first]
    split
    next hm =>
      have hm' : m.encfs_front = front := by rwa [beq_iff_eq] at hm
      have hmf : (m.encfs_front == f) = false := by
        rw [beq_eq_false_iff_ne, hm']
        exact fun hc => h hc.symm
      unfold find_front_mapping
      simp only [List.find?_cons, hmf]
    next hm =>
      unfold find_front_mapping at ih ⊢
      cases hbe : (m.encfs_front == f) with
      | true => simp only [List.find?_cons, hbe]
      | false =>
        simp only [List.find?_cons, hbe]
        exact ih

theorem find_front_remove_other (f front : CStr) (h : f ≠ front)
    (l : List MountEntry) :
    find_front_mapping f (remove_first_front front l) =
      find_front_mapping f l := by
  induction l with
  | nil => rfl
  | cons m rest ih =>
    simp only [remove_first_front]
    split
    next hm =>
      have hm' : m.encfs_front = front := by rwa [beq_iff_eq] at hm
      have hmf : (m.encfs_front == f) = false := by
        rw [beq_eq_false_iff_ne, hm']
        exact fun hc => h hc.symm
      unfold find_front_mapping
      simp only [List.find?_cons, hmf]
    next hm =>
      unfold find_front_mapping at ih ⊢
      cases hbe : (m.encfs_front == f) with
      | true => simp only [List.find?_cons, hbe]
      | false =>
        simp only [List.find?_cons, hbe]
        exact ih

theorem find_front_append (f : CStr) (l1 l2 : List MountEntry) :
    find_front_mapping f (l1 ++ l2) =
      (find_front_mapping f l1).or (find_front_mapping f l2) := by
  simp [find_front_mapping, List.find?_append]

theorem find_front_eq_none_iff (front : CStr) (l : List MountEntry) :
    find_front_mapping front l = none ↔ front ∉ frontsOf l := by
  unfold find_front_mapping frontsOf
  rw [List.find?_eq_none]
  constructor
  · intro h hc
    rcases List.mem_map.mp hc with ⟨m, hm, hmf⟩
    exact h m hm (by simp [hmf])
  · intro h m hm hc
    exact h (List.mem_map.mpr ⟨m, hm, by simpa using hc⟩)

theorem find_front_clear_pending_same (front : CStr) (l : List MountEntry)
    (m : MountEntry) (h : find_front_mapping front l = some m) :
    find_front_mapping front (clear_pending_first front l) =
      some { m with pending_removal := false } := by
  induction l with
  | nil => simp [find_front_mapping] at h
  | cons m0 rest ih =>
    unfold find_front_mapping at h ⊢
    simp only [clear_pending_first]
    cases hbe : (m0.encfs_front == front) with
    | true =>
      simp only [List.find?_cons, hbe] at h
      have hm : m0 = m := by simpa using h
      subst hm
      simp [List.find?_cons, hbe]
    | false =>
      simp only [List.find?_cons, hbe] at h
      simp only [hbe, Bool.false_eq_true, if_false]
      simp only [List.find?_cons, hbe]
      exact ih h

theorem frontsOf_clear_pending (front : CStr) (l : List MountEntry) :
    frontsOf (clear_pending_first front l) = frontsOf l := by
  induction l with
  | nil => rfl
  | cons m rest ih =>
    simp only [clear_pending_first]
    split
    · simp [frontsOf]
    · simpa [frontsOf] using ih

theorem frontsOf_mark_all (l : List MountEntry) :
    frontsOf (mark_all_pending l) = frontsOf l := by
  simp [frontsOf, mark_all_pending, markP]

theorem remove_first_front_sublist (front : CStr) (l : List MountEntry) :
    (remove_first_front front l).Sublist l := by
  induction l with
  | nil => exact List.Sublist.refl []
  | cons m rest ih =>
    simp only [remove_first_front]
    split
    · exact List.sublist_cons_self m rest
    · exact List.Sublist.cons₂ m ih

theorem find_front_remove_none (front : CStr) (l : List MountEntry)
    (hN : (frontsOf l).Nodup) (m : MountEntry)
    (h : find_front_mapping front l = some m) :
    find_front_mapping front (remove_first_front front l) = none := by
  induction l with
  | nil => simp [find_front_mapping] at h
  | cons m0 rest ih =>
    unfold find_front_mapping at h ⊢
    simp only [remove_first_front]
    cases hbe : (m0.encfs_front == front) with
    | true =>
      simp only [hbe, if_true]
      have hfr : m0.encfs_front = front := by rwa [beq_iff_eq] at hbe
      have hN' : m0.encfs_front ∉ frontsOf rest ∧ (frontsOf rest).Nodup := by
        have hc : frontsOf (m0 :: rest) = m0.encfs_front :: frontsOf rest :=
          rfl
        rw [hc] at hN
        exact List.nodup_cons.mp hN
      exact (find_front_eq_none_iff front rest).mpr (hfr ▸ hN'.1)
    | false =>
      simp only [List.find?_cons, hbe] at h
      simp only [hbe, Bool.false_eq_true, if_false]
      simp only [List.find?_cons, hbe]
      have hN' : m0.encfs_front ∉ frontsOf rest ∧ (frontsOf rest).Nodup := by
        have hc : frontsOf (m0 :: rest) = m0.encfs_front :: frontsOf rest :=
          rfl
        rw [hc] at hN
        exact List.nodup_cons.mp hN
      exact ih hN'.2 h

theorem find_front_singleton_self (front back : CStr) (pid : Nat) :
    find_front_mapping front
      [(⟨front, back, pid, false⟩ : MountEntry)] =
      some ⟨front, back, pid, false⟩ := by
  unfold find_front_mapping
  exact List.find?_cons_of_pos _ (by simp)

/-- Looking up the updated front in `update_mount_entry` realizes exactly
one `stepOcc`, provided overlay roots are unique in the table. -/
theorem find_front_update_same (back front : CStr) (pid : Nat)
    (st : MapperState) (hN : (frontsOf st.front_to_back_map).Nodup) :
    find_front_mapping front
        (update_mount_entry back front pid st).front_to_back_map =
      some (stepOcc front (back, pid)
        (find_front_mapping front st.front_to_back_map)) := by
  cases hf : find_front_mapping front st.front_to_back_map with
  | some m =>
    by_cases hpid : m.encfs_pid = pid
    · simp only [update_mount_entry, hf, if_pos hpid]
      rw [find_front_clear_pending_same front _ m hf]
      simp [stepOcc, hpid]
    · simp only [update_mount_entry, hf, if_neg hpid]
      rw [find_front_append]
      rw [find_front_remove_none front _ hN m hf]
      rw [find_front_singleton_self]
      simp [stepOcc, hpid]
  | none =>
    simp only [update_mount_entry, hf]
    rw [find_front_append, hf, find_front_singleton_self]
    simp [stepOcc]

/-- Updating one front leaves lookups of every other front unchanged. -/
theorem find_front_update_other (back front f : CStr) (h : f ≠ front)
    (pid : Nat) (st : MapperState) :
    find_front_mapping f
        (update_mount_entry back front pid st).front_to_back_map =
      find_front_mapping f st.front_to_back_map := by
  have hsing : find_front_mapping f
      [(⟨front, back, pid, false⟩ : MountEntry)] = none := by
    unfold find_front_mapping
    simp only [List.find?_cons]
    rw [show ((⟨front, back, pid, false⟩ : MountEntry).encfs_front == f) =
      false from by simp; exact fun hc => h hc.symm]
    rfl
  cases hf : find_front_mapping front st.front_to_back_map with
  | some m =>
    by_cases hpid : m.encfs_pid = pid
    · simp only [update_mount_entry, hf, if_pos hpid]
      exact find_front_clear_pending_other f front h _
    · simp only [update_mount_entry, hf, if_neg hpid]
      rw [find_front_append, hsing]
      rw [Option.or_none]
      exact find_front_remove_other f front h _
  | none =>
    simp only [update_mount_entry, hf]
    rw [find_front_append, hsing, Option.or_none]

theorem frontsOf_append (l1 l2 : List MountEntry) :
    frontsOf (l1 ++ l2) = frontsOf l1 ++ frontsOf l2 := by
  simp [frontsOf]

theorem frontsOf_update_nodup (back front : CStr) (pid : Nat)
    (st : MapperState) (hN : (frontsOf st.front_to_back_map).Nodup) :
    (frontsOf (update_mount_entry back front pid st).front_to_back_map).Nodup
    := by
  cases hf : find_front_mapping front st.front_to_back_map with
  | some m =>
    by_cases hpid : m.encfs_pid = pid
    · simp only [update_mount_entry, hf, if_pos hpid]
      rwa [frontsOf_clear_pending]
    · simp only [update_mount_entry, hf, if_neg hpid]
      rw [frontsOf_append]
      have hsub : (frontsOf (remove_first_front front
          st.front_to_back_map)).Sublist (frontsOf st.front_to_back_map) :=
        (remove_first_front_sublist front _).map _
      have h1 : (frontsOf (remove_first_front front
          st.front_to_back_map)).Nodup := hN.sublist hsub
      have h2 : front ∉ frontsOf (remove_first_front front
          st.front_to_back_map) := by
        rw [← find_front_eq_none_iff]
        exact find_front_remove_none front _ hN m hf
      rw [List.nodup_append]
      refine ⟨h1, List.nodup_singleton _, ?_⟩
      intro a ha hc
      have : a = front := by simpa [frontsOf] using hc
      exact h2 (this ▸ ha)
  | none =>
    simp only [update_mount_entry, hf]
    rw [frontsOf_append]
    have h2 : front ∉ frontsOf st.front_to_back_map := by
      rw [← find_front_eq_none_iff]
      exact hf
    rw [List.nodup_append]
    refine ⟨hN, List.nodup_singleton _, ?_⟩
    intro a ha hc
    have : a = front := by simpa [frontsOf] using hc
    exact h2 (this ▸ ha)

theorem frontsOf_scan_step_nodup (st : MapperState) (de : ProcEntry)
    (hN : (frontsOf st.front_to_back_map).Nodup) :
    (frontsOf (refresh_scan_step st de).front_to_back_map).Nodup := by
  rw [refresh_scan_step_eq]
  cases hpm : parsedMountOf de with
  | none => exact hN
  | some t =>
    obtain ⟨b, fr, p⟩ := t
    exact frontsOf_update_nodup b fr p st hN

theorem foldl_scan_nodup (proc : List ProcEntry) (st : MapperState)
    (hN : (frontsOf st.front_to_back_map).Nodup) :
    (frontsOf (proc.foldl refresh_scan_step st).front_to_back_map).Nodup := by
  induction proc generalizing st with
  | nil => exact hN
  | cons de proc ih =>
    exact ih _ (frontsOf_scan_step_nodup st de hN)

theorem occsOf_cons (f : CStr) (de : ProcEntry) (proc : List ProcEntry) :
    occsOf f (de :: proc) =
      (match parsedMountOf de with
        | some t => if t.2.1 = f then (t.1, t.2.2) :: occsOf f proc
                    else occsOf f proc
        | none => occsOf f proc) := by
  unfold occsOf
  cases hpm : parsedMountOf de with
  | none => simp [List.filterMap_cons, hpm]
  | some t =>
    simp only [List.filterMap_cons, hpm, Option.some_bind]
    by_cases hf : t.2.1 = f
    · simp only [if_pos hf]
    · simp only [if_neg hf]

/-- Looking up any front through the whole scan phase realizes the fold of
that front's contributions. -/
theorem find_foldl_scan (proc : List ProcEntry) (st : MapperState) (f : CStr)
    (hN : (frontsOf st.front_to_back_map).Nodup) :
    find_front_mapping f (proc.foldl refresh_scan_step st).front_to_back_map
      = foldOccs f (occsOf f proc)
          (find_front_mapping f st.front_to_back_map) := by
  induction proc generalizing st with
  | nil => rfl
  | cons de proc ih =>
    rw [List.foldl_cons, occsOf_cons]
    cases hpm : parsedMountOf de with
    | none =>
      have hstep : refresh_scan_step st de = st := by
        rw [refresh_scan_step_eq, hpm]
      rw [hstep]
      exact ih st hN
    | some t =>
      obtain ⟨b, fr, p⟩ := t
      have hstep : refresh_scan_step st de = update_mount_entry b fr p st := by
        rw [refresh_scan_step_eq, hpm]
      rw [hstep]
      have hN' := frontsOf_update_nodup b fr p st hN
      by_cases hfr : fr = f
      · subst hfr
        simp only [if_pos rfl]
        rw [ih _ hN']
        rw [find_front_update_same b fr p st hN]
        rfl
      · simp only [if_neg hfr]
        rw [ih _ hN']
        rw [find_front_update_other b fr f (fun hc => hfr hc.symm) p st]

theorem find_front_mark_all (f : CStr) (l : List MountEntry) :
    find_front_mapping f (mark_all_pending l) =
      (find_front_mapping f l).map markP := by
  induction l with
  | nil => rfl
  | cons m rest ih =>
    unfold find_front_mapping at ih ⊢
    simp only [mark_all_pending, List.map_cons]
    cases hbe : (m.encfs_front == f) with
    | true =>
      simp only [List.find?_cons]
      rw [show (({ m with pending_removal := true } :
        MountEntry).encfs_front == f) = true from hbe]
      rfl
    | false =>
      simp only [List.find?_cons]
      rw [show (({ m with pending_removal := true } :
        MountEntry).encfs_front == f) = false from hbe]
      simpa [mark_all_pending] using ih

theorem purge_pending_mounts_sublist (ms : List MountEntry)
    (ic : List InodeMapping) : (purge_pending ms ic).1.Sublist ms := by
  induction ms generalizing ic with
  | nil => exact List.Sublist.refl []
  | cons m rest ih =>
    simp only [purge_pending]
    split
    · exact (ih _).trans (List.sublist_cons_self m rest)
    · exact List.Sublist.cons₂ m (ih ic)

theorem find_front_purge (f : CStr) (ms : List MountEntry)
    (ic : List InodeMapping) (hN : (frontsOf ms).Nodup) :
    find_front_mapping f (purge_pending ms ic).1 =
      purgeStep (find_front_mapping f ms) := by
  induction ms generalizing ic with
  | nil => rfl
  | cons m rest ih =>
    have hN' : m.encfs_front ∉ frontsOf rest ∧ (frontsOf rest).Nodup := by
      have hc : frontsOf (m :: rest) = m.encfs_front :: frontsOf rest := rfl
      rw [hc] at hN
      exact List.nodup_cons.mp hN
    simp only [purge_pending]
    cases hbe : (m.encfs_front == f) with
    | true =>
      have hf : m.encfs_front = f := by rwa [beq_iff_eq] at hbe
      by_cases hp : m.pending_removal
      · rw [if_pos hp]
        have hnone : find_front_mapping f
            (purge_pending rest
              (remove_inode_to_path_mappings_for_path m.encfs_back ic)).1 =
            none := by
          rw [find_front_eq_none_iff]
          intro hc
          have hsub : (frontsOf (purge_pending rest
              (remove_inode_to_path_mappings_for_path m.encfs_back
                ic)).1).Sublist (frontsOf rest) :=
            (purge_pending_mounts_sublist rest _).map _
          exact hN'.1 (hf ▸ hsub.subset hc)
        rw [hnone]
        unfold find_front_mapping
        simp only [List.find?_cons, hbe]
        simp [purgeStep, hp]
      · rw [if_neg hp]
        unfold find_front_mapping
        simp only [List.find?_cons, hbe]
        simp [purgeStep, hp]
    | false =>
      by_cases hp : m.pending_removal
      · rw [if_pos hp]
        rw [ih _ hN'.2]
        unfold find_front_mapping
        simp only [List.find?_cons, hbe]
      · rw [if_neg hp]
        unfold find_front_mapping at ih ⊢
        simp only [List.find?_cons, hbe]
        exact ih ic hN'.2

/-- Looking up any front after a whole refresh: the pending mark, the fold
of the front's scan contributions, and the final sweep. -/
theorem find_front_refresh (proc : List ProcEntry) (st : MapperState)
    (f : CStr) (hN : (frontsOf st.front_to_back_map).Nodup) :
    find_front_mapping f (do_refresh_mounts proc st).front_to_back_map =
      purgeStep (foldOccs f (occsOf f proc)
        ((find_front_mapping f st.front_to_back_map).map markP)) := by
  have hN1 : (frontsOf (mark_all_pending st.front_to_back_map)).Nodup := by
    rwa [frontsOf_mark_all]
  have hN1' : (frontsOf (MapperState.mk
      (mark_all_pending st.front_to_back_map)
      st.inode_to_path_map).front_to_back_map).Nodup := hN1
  have hN2 := foldl_scan_nodup proc _ hN1'
  unfold do_refresh_mounts
  rw [find_front_purge f _ _ hN2]
  rw [find_foldl_scan proc _ f hN1']
  rw [show (MapperState.mk (mark_all_pending st.front_to_back_map)
      st.inode_to_path_map).front_to_back_map =
    mark_all_pending st.front_to_back_map from rfl]
  rw [find_front_mark_all]

theorem refresh_nodup (proc : List ProcEntry) (st : MapperState)
    (hN : (frontsOf st.front_to_back_map).Nodup) :
    (frontsOf (do_refresh_mounts proc st).front_to_back_map).Nodup := by
  have hN1' : (frontsOf (MapperState.mk
      (mark_all_pending st.front_to_back_map)
      st.inode_to_path_map).front_to_back_map).Nodup := by
    have : frontsOf (MapperState.mk (mark_all_pending st.front_to_back_map)
        st.inode_to_path_map).front_to_back_map =
        frontsOf st.front_to_back_map := frontsOf_mark_all _
    rwa [this]
  have hN2 := foldl_scan_nodup proc _ hN1'
  unfold do_refresh_mounts
  exact hN2.sublist ((purge_pending_mounts_sublist _ _).map _)

theorem foldOccs_nil (f : CStr) (c : Option MountEntry) :
    foldOccs f [] c = c := rfl

theorem foldOccs_cons (f : CStr) (o : CStr × Nat) (os : List (CStr × Nat))
    (c : Option MountEntry) :
    foldOccs f (o :: os) c = foldOccs f os (some (stepOcc f o c)) := rfl

theorem stepOcc_of_pid_eq (f : CStr) (o : CStr × Nat) (m : MountEntry)
    (h : m.encfs_pid = o.2) :
    stepOcc f o (some m) = { m with pending_removal := false } := by
  simp [stepOcc, h]

theorem stepOcc_of_pid_ne (f : CStr) (o : CStr × Nat) (m : MountEntry)
    (h : ¬m.encfs_pid = o.2) :
    stepOcc f o (some m) = ⟨f, o.1, o.2, false⟩ := by
  simp [stepOcc, h]

theorem stepOcc_pid (f : CStr) (o : CStr × Nat) (c : Option MountEntry) :
    (stepOcc f o c).encfs_pid = o.2 := by
  cases c with
  | none => rfl
  | some m =>
    by_cases h : m.encfs_pid = o.2
    · rw [stepOcc_of_pid_eq f o m h]
      exact h
    · rw [stepOcc_of_pid_ne f o m h]

theorem stepOcc_pending (f : CStr) (o : CStr × Nat) (c : Option MountEntry) :
    (stepOcc f o c).pending_removal = false := by
  cases c with
  | none => rfl
  | some m =>
    by_cases h : m.encfs_pid = o.2
    · rw [stepOcc_of_pid_eq f o m h]
    · rw [stepOcc_of_pid_ne f o m h]

theorem stepOcc_front (f : CStr) (o : CStr × Nat) (c : Option MountEntry)
    (hc : ∀ m, c = some m → m.encfs_front = f) :
    (stepOcc f o c).encfs_front = f := by
  cases c with
  | none => rfl
  | some m =>
    by_cases h : m.encfs_pid = o.2
    · rw [stepOcc_of_pid_eq f o m h]
      exact hc m rfl
    · rw [stepOcc_of_pid_ne f o m h]

theorem stepOcc_markP (f : CStr) (o : CStr × Nat) (m : MountEntry) :
    stepOcc f o (some (markP m)) = stepOcc f o (some m) := by
  unfold stepOcc markP
  by_cases h : m.encfs_pid = o.2
  · simp [h]
  · simp [h]

/-- Shape of a non-empty fold of contributions: a present entry carrying the
fixed front, a cleared pending flag and the pid of the last contribution. -/
theorem foldOccs_result (f : CStr) :
    ∀ (os : List (CStr × Nat)), os ≠ [] →
    ∀ (c : Option MountEntry), (∀ m, c = some m → m.encfs_front = f) →
    ∃ m, foldOccs f os c = some m ∧ m.pending_removal = false ∧
      m.encfs_front = f ∧ (os.getLast?).map Prod.snd = some m.encfs_pid
  | [], hne => absurd rfl hne
  | o :: os', _ => fun c hc => by
    cases os' with
    | nil =>
      refine ⟨stepOcc f o c, rfl, stepOcc_pending f o c,
        stepOcc_front f o c hc, ?_⟩
      simp [stepOcc_pid]
    | cons o2 os'' =>
      have hrec := foldOccs_result f (o2 :: os'') (List.cons_ne_nil o2 os'')
        (some (stepOcc f o c))
        (fun m hm => by
          have : stepOcc f o c = m := by simpa using hm
          rw [← this]
          exact stepOcc_front f o c hc)
      obtain ⟨m, hm, hp, hf, hl⟩ := hrec
      refine ⟨m, ?_, hp, hf, ?_⟩
      · rw [foldOccs_cons]
        exact hm
      · rw [List.getLast?_cons_cons]
        exact hl

theorem foldOccs_markP (f : CStr) (os : List (CStr × Nat)) (hne : os ≠ [])
    (m : MountEntry) :
    foldOccs f os (some (markP m)) = foldOccs f os (some m) := by
  cases os with
  | nil => exact absurd rfl hne
  | cons o os' =>
    rw [foldOccs_cons, foldOccs_cons, stepOcc_markP]

theorem foldOccs_const_pid (f : CStr) (p : Nat) :
    ∀ (os : List (CStr × Nat)), (∀ o ∈ os, o.2 = p) → os ≠ [] →
    ∀ (m : MountEntry), m.encfs_pid = p →
    foldOccs f os (some m) = some { m with pending_removal := false }
  | [], _, hne => absurd rfl hne
  | o :: os', hall, _ => fun m hm => by
    have ho : o.2 = p := hall o (List.mem_cons_self o os')
    have hstep : stepOcc f o (some m) = { m with pending_removal := false }
        := stepOcc_of_pid_eq f o m (by rw [hm, ho])
    cases os' with
    | nil => rw [foldOccs_cons, hstep, foldOccs_nil]
    | cons o2 os'' =>
      rw [foldOccs_cons, hstep]
      have := foldOccs_const_pid f p (o2 :: os'')
        (fun q hq => hall q (List.mem_cons_of_mem o hq))
        (List.cons_ne_nil o2 os'')
        { m with pending_removal := false } (by simpa using hm)
      simpa using this

theorem foldOccs_indep (f : CStr) :
    ∀ (os : List (CStr × Nat)), (¬∃ p, ∀ o ∈ os, o.2 = p) →
    ∀ (x y : Option MountEntry), foldOccs f os x = foldOccs f os y
  | [], h => absurd ⟨0, by simp⟩ h
  | o :: os', h => fun x y => by
    by_cases hall : ∃ p, ∀ q ∈ os', q.2 = p
    · obtain ⟨p, hp⟩ := hall
      cases os' with
      | nil =>
        exact absurd ⟨o.2, by simp⟩ h
      | cons o2 os'' =>
        have hp2 : o2.2 = p := hp o2 (List.mem_cons_self o2 os'')
        by_cases ho : o.2 = p
        · refine absurd ⟨p, ?_⟩ h
          intro q hq
          rcases List.mem_cons.mp hq with hq | hq
          · rw [hq]; exact ho
          · exact hp q hq
        · have hz : ∀ w : Option MountEntry,
              stepOcc f o2 (some (stepOcc f o w)) = ⟨f, o2.1, o2.2, false⟩
              := by
            intro w
            exact stepOcc_of_pid_ne f o2 _
              (by rw [stepOcc_pid, hp2]; exact ho)
          rw [foldOccs_cons, foldOccs_cons, foldOccs_cons, foldOccs_cons,
            hz x, hz y]
    · rw [foldOccs_cons, foldOccs_cons]
      exact foldOccs_indep f os' hall _ _

theorem foldOccs_idem (f : CStr) (os : List (CStr × Nat)) (hne : os ≠ [])
    (x : Option MountEntry) (hx : ∀ m, x = some m → m.encfs_front = f) :
    foldOccs f os (foldOccs f os x) = foldOccs f os x := by
  by_cases hall : ∃ p, ∀ o ∈ os, o.2 = p
  · obtain ⟨p, hp⟩ := hall
    obtain ⟨m, hm, hpend, hfr, hlast⟩ := foldOccs_result f os hne x hx
    have hmp : m.encfs_pid = p := by
      cases hl : os.getLast? with
      | none =>
        rw [List.getLast?_eq_none_iff] at hl
        exact absurd hl hne
      | some ol =>
        rw [hl] at hlast
        have hol : ol ∈ os := by
          obtain ⟨hh, heq⟩ := List.mem_getLast?_eq_getLast
            (show ol ∈ os.getLast? from by rw [hl]; rfl)
          rw [heq]
          exact List.getLast_mem hh
        have : ol.2 = m.encfs_pid := by simpa using hlast
        rw [← this]
        exact hp ol hol
    rw [hm, foldOccs_const_pid f p os hp hne m hmp]
    have hmm : ({ m with pending_removal := false } : MountEntry) = m := by
      obtain ⟨a, b, c, d⟩ := m
      simp only at hpend
      rw [hpend]
    rw [hmm]
  · exact foldOccs_indep f os hall _ x

theorem find_front_of_mem :
    ∀ (l : List MountEntry), (frontsOf l).Nodup →
    ∀ e : MountEntry, e ∈ l → find_front_mapping e.encfs_front l = some e
  | [] => fun _ e he => absurd he (List.not_mem_nil e)
  | m :: rest => fun hN e he => by
    have hN' : m.encfs_front ∉ frontsOf rest ∧ (frontsOf rest).Nodup := by
      have hc : frontsOf (m :: rest) = m.encfs_front :: frontsOf rest := rfl
      rw [hc] at hN
      exact List.nodup_cons.mp hN
    rcases List.mem_cons.mp he with h | h
    · subst h
      unfold find_front_mapping
      simp [List.find?_cons]
    · have hne : (m.encfs_front == e.encfs_front) = false := by
        rw [beq_eq_false_iff_ne]
        intro hc
        apply hN'.1
        rw [hc]
        exact List.mem_map.mpr ⟨e, h, rfl⟩
      unfold find_front_mapping
      simp only [List.find?_cons, hne]
      exact find_front_of_mem rest hN'.2 e h

theorem find_front_front (f : CStr) (l : List MountEntry) (m : MountEntry)
    (h : find_front_mapping f l = some m) : m.encfs_front = f := by
  have := List.find?_some h
  rwa [beq_iff_eq] at this

theorem purgeStep_some (x : Option MountEntry) (m : MountEntry)
    (h : purgeStep x = some m) : m.pending_removal = false := by
  cases x with
  | none => simp [purgeStep] at h
  | some m0 =>
    cases hb : m0.pending_removal with
    | true => simp [purgeStep, hb] at h
    | false =>
      simp [purgeStep, hb] at h
      rw [← h]
      exact hb

/-- C8: refreshing twice against the same `/proc` snapshot leaves the mount
table where the first refresh put it: the same set of entries (overlay root,
backing root, pid), and none of them marked pending-removal.  The standing
data-model invariant that overlay roots are unique in the table is the only
hypothesis. -/
theorem C8_refresh_idempotent (proc : List ProcEntry) (st : MapperState)
    (hN : (frontsOf st.front_to_back_map).Nodup) :
    (∀ m : MountEntry,
      m ∈ (do_refresh_mounts proc
            (do_refresh_mounts proc st)).front_to_back_map ↔
      m ∈ (do_refresh_mounts proc st).front_to_back_map) ∧
    (∀ m ∈ (do_refresh_mounts proc st).front_to_back_map,
      m.pending_removal = false) := by
  have hN1 : (frontsOf (do_refresh_mounts proc st).front_to_back_map).Nodup :=
    refresh_nodup proc st hN
  have hN2 : (frontsOf (do_refresh_mounts proc
      (do_refresh_mounts proc st)).front_to_back_map).Nodup :=
    refresh_nodup proc _ hN1
  have hmark_none : ∀ x : Option MountEntry, purgeStep (x.map markP) = none
      := by
    intro x
    cases x with
    | none => rfl
    | some m => simp [purgeStep, markP]
  have key : ∀ f : CStr,
      find_front_mapping f (do_refresh_mounts proc
        (do_refresh_mounts proc st)).front_to_back_map =
      find_front_mapping f (do_refresh_mounts proc st).front_to_back_map := by
    intro f
    have h1 := find_front_refresh proc st f hN
    have h2 := find_front_refresh proc (do_refresh_mounts proc st) f hN1
    cases hos : occsOf f proc with
    | nil =>
      rw [hos, foldOccs_nil] at h1 h2
      rw [h2, h1, hmark_none, hmark_none]
    | cons o os' =>
      have hne : occsOf f proc ≠ [] := by
        rw [hos]
        exact List.cons_ne_nil o os'
      have hx0 : ∀ m, ((find_front_mapping f
          st.front_to_back_map).map markP) = some m → m.encfs_front = f := by
        intro m hm
        cases hf0 : find_front_mapping f st.front_to_back_map with
        | none => rw [hf0] at hm; simp at hm
        | some m0 =>
          rw [hf0, show (some m0).map markP = some (markP m0) from rfl] at hm
          have hmm : markP m0 = m := by simpa using hm
          rw [← hmm]
          exact find_front_front f _ m0 hf0
      obtain ⟨m1, hm1, hp1, hf1, _⟩ :=
        foldOccs_result f (occsOf f proc) hne _ hx0
      have hfind1 : find_front_mapping f
          (do_refresh_mounts proc st).front_to_back_map = some m1 := by
        rw [h1, hm1]
        simp [purgeStep, hp1]
      rw [h2, hfind1]
      rw [show (some m1).map markP = some (markP m1) from rfl]
      rw [foldOccs_markP f _ hne m1]
      rw [show (some m1 : Option MountEntry) = foldOccs f (occsOf f proc)
        ((find_front_mapping f st.front_to_back_map).map markP) from hm1.symm]
      rw [foldOccs_idem f _ hne _ hx0]
      rw [hm1]
      simp [purgeStep, hp1]
  constructor
  · intro m
    constructor
    · intro hm2
      have h := find_front_of_mem _ hN2 m hm2
      rw [key m.encfs_front] at h
      exact List.mem_of_find?_eq_some h
    · intro hm1
      have h := find_front_of_mem _ hN1 m hm1
      rw [← key m.encfs_front] at h
      exact List.mem_of_find?_eq_some h
  · intro m hm1
    have h := find_front_of_mem _ hN1 m hm1
    have h1 := find_front_refresh proc st m.encfs_front hN
    rw [h] at h1
    exact purgeStep_some _ m h1.symm

/-- Witness for C8: one `/proc` snapshot holding a single encfs process
(`encfs /b /m`, pid 7), applied twice to the empty state. -/
theorem C8_refresh_idempotent_witness :
    (∀ m : MountEntry,
      m ∈ (do_refresh_mounts
            [⟨true, ['7'], some [['e', 'n', 'c', 'f', 's'],
              ['/', 'b'], ['/', 'm']]⟩]
            (do_refresh_mounts
              [⟨true, ['7'], some [['e', 'n', 'c', 'f', 's'],
                ['/', 'b'], ['/', 'm']]⟩]
              ⟨[], []⟩)).front_to_back_map ↔
      m ∈ (do_refresh_mounts
            [⟨true, ['7'], some [['e', 'n', 'c', 'f', 's'],
              ['/', 'b'], ['/', 'm']]⟩]
            ⟨[], []⟩).front_to_back_map) ∧
    (∀ m ∈ (do_refresh_mounts
          [⟨true, ['7'], some [['e', 'n', 'c', 'f', 's'],
            ['/', 'b'], ['/', 'm']]⟩]
          ⟨[], []⟩).front_to_back_map,
      m.pending_removal = false) :=
  C8_refresh_idempotent
    [⟨true, ['7'], some [['e', 'n', 'c', 'f', 's'], ['/', 'b'], ['/', 'm']]⟩]
    ⟨[], []⟩ (by simp [frontsOf])

/-! ## Overlay path resolution (encfs_mapper.c:337-579)

The filesystem is a parameter: `statfs` yields the filesystem type magic,
`lstat` yields (is-regular-file, inode), `readdir` yields the directory's
(inode, name) entries as one `getdents64` stream (`none` = open failure). -/

structure Fs where
  statfs : CStr → Option Int
  lstat : CStr → Option (Bool × Nat)
  readdir : CStr → Option (List (Nat × CStr))

/-- `query_inode_to_path_map` (encfs_mapper.c:451-457): duplicate the cached
path for an inode, if present. -/
def query_inode_to_path_map (inode : Nat) (ic : List InodeMapping) :
    Option CStr :=
  (ic.find? (fun m => m.inode == inode)).map InodeMapping.path

/-- `find_inode_in_dir` (encfs_mapper.c:386-449): scan a directory; remember
the (last) entry whose inode matches the target, and record every entry in
the inode cache unless its inode is already cached (first writer wins). -/
def find_inode_in_dir (fs : Fs) (path : CStr) (target_inode : Nat)
    (ic : List InodeMapping) : Option CStr × List InodeMapping :=
  match fs.readdir path with
  | none => (none, ic)
  | some entries =>
    entries.foldl
      (fun acc de =>
        let full := joinPath path de.2
        let res' := if de.1 = target_inode then some full else acc.1
        let ic' :=
          if (acc.2.find? (fun m => m.inode == de.1)).isSome then acc.2
          else acc.2 ++ [⟨de.1, full⟩]
        (res', ic'))
      ((none : Option CStr), ic)

/-- The `while` loop of `trace_inodes_back_to_base` (encfs_mapper.c:355-371)
plus the final length check (line 373): push the inode of the current path,
cut at the last `'/'`, stop when the path has shrunk to the overlay-root
length.  A failing `lstat` (or a cut that misses the root) yields `none`
(the C returns NULL).  When the path holds no `'/'` the C truncation is a
no-op and the loop never terminates; the fuel models that divergence (it is
unreachable from `encfs_mapper_resolve_path`, whose prefix check makes every
intermediate path either contain `'/'` or already have the root length). -/
def trace_inodes_loop (fs : Fs) (encfs_front_len : Nat) :
    Nat → CStr → List Nat → Option (List Nat)
  | 0, _, _ => none
  | fuel + 1, cur, acc =>
    if cur.length > encfs_front_len then
      match fs.lstat cur with
      | none => none
      | some s =>
        let acc' := acc ++ [s.2]
        match lastSlashIdx cur with
        | none => trace_inodes_loop fs encfs_front_len fuel cur acc'
        | some i =>
          let cur' := cur.take i
          if cur'.length = 0 then
            (if encfs_front_len = 0 then some acc' else none)
          else trace_inodes_loop fs encfs_front_len fuel cur' acc'
    else if cur.length = encfs_front_len then some acc else none

/-- `trace_inodes_back_to_base` (encfs_mapper.c:337-384). -/
def trace_inodes_back_to_base (fs : Fs) (src_path encfs_front : CStr) :
    Option (List Nat) :=
  let cur := strdup_and_trim_slashes src_path
  trace_inodes_loop fs encfs_front.length (cur.length + 1) cur []

/-- The downward walk of `follow_inode_trace` (encfs_mapper.c:497-510):
resolve each remaining trace inode inside the current directory. -/
def follow_walk (fs : Fs) :
    List Nat → CStr → List InodeMapping → Option CStr × List InodeMapping
  | [], cur, ic => (some cur, ic)
  | t :: rest, cur, ic =>
    let r := find_inode_in_dir fs cur t ic
    match r.1 with
    | none => (none, r.2)
    | some p => follow_walk fs rest p r.2

/-- The cache probe of `follow_inode_trace` (encfs_mapper.c:467-481): index
and path of the first trace inode found in the cache. -/
def firstCacheHit (ic : List InodeMapping) : List Nat → Option (Nat × CStr)
  | [] => none
  | i :: rest =>
    match query_inode_to_path_map i ic with
    | some p => some (0, p)
    | none => (firstCacheHit ic rest).map (fun kp => (kp.1 + 1, kp.2))

/-- `follow_inode_trace` (encfs_mapper.c:459-514): on a cache hit at trace
index K the walk starts from the cached path at index K-1; on a miss it
starts from the mount's backing root at the deepest index.  The trace is
stored deepest-first, so walking indices K-1..0 is walking the reversed
K-prefix. -/
def follow_inode_trace (fs : Fs) (tr : List Nat) (base : CStr)
    (ic : List InodeMapping) : Option CStr × List InodeMapping :=
  match firstCacheHit ic tr with
  | some (k, p) => follow_walk fs ((tr.take k).reverse) p ic
  | none => follow_walk fs tr.reverse base ic

/-- The mount-matching test of `encfs_mapper_resolve_path`
(encfs_mapper.c:541-545): the overlay root is a byte-prefix of the path and
the boundary falls on `'/'` or end-of-string. -/
def path_in_encfs (src front : CStr) : Bool :=
  front.isPrefixOf src &&
  (decide (src.length = front.length) || src.get? front.length == some '/')

/-- Result of `encfs_mapper_resolve_path`: the returned C string may be NULL
(`nullp`, the `statfs` failure exit), and calling `follow_inode_trace` with
the NULL array produced by a failed trace dereferences a null pointer
(`crash`). -/
inductive ResolveRes where
  | crash
  | nullp
  | path (p : CStr)
deriving DecidableEq, Repr

/-- `encfs_mapper_resolve_path` (encfs_mapper.c:516-579). -/
def encfs_mapper_resolve_path (fs : Fs) (st : MapperState)
    (src_path : CStr) : ResolveRes × MapperState :=
  match fs.statfs src_path with
  | none => (.nullp, st)
  | some t =>
    if t ≠ FUSE_SUPER_MAGIC then (.path src_path, st)
    else
      match st.front_to_back_map.find?
          (fun m => path_in_encfs src_path m.encfs_front) with
      | none => (.path src_path, st)
      | some m =>
        match fs.lstat src_path with
        | none => (.path src_path, st)
        | some s =>
          if s.1 = false then (.path src_path, st)
          else
            match query_inode_to_path_map s.2 st.inode_to_path_map with
            | some p => (.path p, st)
            | none =>
              match trace_inodes_back_to_base fs src_path m.encfs_front with
              | none => (.crash, st)
              | some tr =>
                let r := follow_inode_trace fs tr m.encfs_back
                  st.inode_to_path_map
                match r.1 with
                | some p => (.path p, { st with inode_to_path_map := r.2 })
                | none =>
                  (.path src_path, { st with inode_to_path_map := r.2 })

/-- C2: a path whose filesystem type is not the FUSE magic resolves to a
byte-equal copy of itself (a fresh owned string in the C), with both tables
— the mount table and the inode cache — unchanged. -/
theorem C2_resolve_transparency (fs : Fs) (st : MapperState) (p : CStr)
    (t : Int) (hs : fs.statfs p = some t) (ht : t ≠ FUSE_SUPER_MAGIC) :
    encfs_mapper_resolve_path fs st p = (.path p, st) := by
  unfold encfs_mapper_resolve_path
  rw [hs]
  simp [ht]

/-- A filesystem on which every path reports a non-FUSE type. -/
def nonFuseFs : Fs :=
  { statfs := fun _ => some 0x1234
    lstat := fun _ => none
    readdir := fun _ => none }

/-- Witness for C2 on a concrete non-overlay filesystem. -/
theorem C2_resolve_transparency_witness :
    encfs_mapper_resolve_path nonFuseFs ⟨[], []⟩ ['a'] =
      (.path ['a'], ⟨[], []⟩) :=
  C2_resolve_transparency nonFuseFs ⟨[], []⟩ ['a'] 0x1234 rfl (by decide)

/-- Does the resolver outcome carry a (non-null) path? -/
def resolve_returns_path : ResolveRes → Bool
  | .path _ => true
  | _ => false

/-- A filesystem on which `statfs` fails for every path. -/
def failStatfsFs : Fs :=
  { statfs := fun _ => none
    lstat := fun _ => none
    readdir := fun _ => none }

/-- C1 counterexample: when `statfs` on the input fails,
`encfs_mapper_resolve_path` returns NULL (encfs_mapper.c:524-528,
`res = NULL; goto done;`), not a copy of the input — contradicting "returns
a non-null path for every input". -/
theorem C1_resolve_counterexample :
    resolve_returns_path
      (encfs_mapper_resolve_path failStatfsFs ⟨[], []⟩ ['a']).1 = false := rfl

/-- C1 amended: resolve falls back to a byte-copy of P in the non-overlay,
no-matching-mount, failed-or-non-regular-lstat and backing-walk-miss cases,
but (a) when `statfs` on P fails it returns NULL rather than a copy, and
(b) when the inode trace cannot be built it hands the NULL trace array to
`follow_inode_trace` — a null-pointer dereference (modelled `crash`) — and
does not fall back. -/
theorem C1_resolve_fallback (fs : Fs) (st : MapperState) (p : CStr) :
    (fs.statfs p = none →
      encfs_mapper_resolve_path fs st p = (.nullp, st)) ∧
    (∀ t : Int, fs.statfs p = some t → t ≠ FUSE_SUPER_MAGIC →
      encfs_mapper_resolve_path fs st p = (.path p, st)) ∧
    (fs.statfs p = some FUSE_SUPER_MAGIC →
      st.front_to_back_map.find? (fun m => path_in_encfs p m.encfs_front)
        = none →
      encfs_mapper_resolve_path fs st p = (.path p, st)) ∧
    (∀ m : MountEntry, fs.statfs p = some FUSE_SUPER_MAGIC →
      st.front_to_back_map.find? (fun m => path_in_encfs p m.encfs_front)
        = some m →
      fs.lstat p = none →
      encfs_mapper_resolve_path fs st p = (.path p, st)) ∧
    (∀ (m : MountEntry) (ino : Nat),
      fs.statfs p = some FUSE_SUPER_MAGIC →
      st.front_to_back_map.find? (fun m => path_in_encfs p m.encfs_front)
        = some m →
      fs.lstat p = some (false, ino) →
      encfs_mapper_resolve_path fs st p = (.path p, st)) ∧
    (∀ (m : MountEntry) (ino : Nat),
      fs.statfs p = some FUSE_SUPER_MAGIC →
      st.front_to_back_map.find? (fun m => path_in_encfs p m.encfs_front)
        = some m →
      fs.lstat p = some (true, ino) →
      query_inode_to_path_map ino st.inode_to_path_map = none →
      trace_inodes_back_to_base fs p m.encfs_front = none →
      (encfs_mapper_resolve_path fs st p).1 = .crash) ∧
    (∀ (m : MountEntry) (ino : Nat) (tr : List Nat),
      fs.statfs p = some FUSE_SUPER_MAGIC →
      st.front_to_back_map.find? (fun m => path_in_encfs p m.encfs_front)
        = some m →
      fs.lstat p = some (true, ino) →
      query_inode_to_path_map ino st.inode_to_path_map = none →
      trace_inodes_back_to_base fs p m.encfs_front = some tr →
      (follow_inode_trace fs tr m.encfs_back st.inode_to_path_map).1 = none →
      encfs_mapper_resolve_path fs st p =
        (.path p, { st with inode_to_path_map :=
          (follow_inode_trace fs tr m.encfs_back st.inode_to_path_map).2 }))
    := by
  refine ⟨?_, ?_, ?_, ?_, ?_, ?_, ?_⟩
  · intro hs
    unfold encfs_mapper_resolve_path
    rw [hs]
  · intro t hs ht
    unfold encfs_mapper_resolve_path
    rw [hs]
    simp [ht]
  · intro hs hfind
    unfold encfs_mapper_resolve_path
    rw [hs]
    simp [hfind]
  · intro m hs hfind hl
    unfold encfs_mapper_resolve_path
    rw [hs]
    simp [hfind, hl]
  · intro m ino hs hfind hl
    unfold encfs_mapper_resolve_path
    rw [hs]
    simp [hfind, hl]
  · intro m ino hs hfind hl hq htr
    unfold encfs_mapper_resolve_path
    rw [hs]
    simp [hfind, hl, hq, htr]
  · intro m ino tr hs hfind hl hq htr hfol
    unfold encfs_mapper_resolve_path
    rw [hs]
    simp [hfind, hl, hq, htr, hfol]

/-- The mount `/m` → `/b` (pid 1) with an empty inode cache. -/
def demoMount : MountEntry := ⟨['/', 'm'], ['/', 'b'], 1, false⟩

def demoSt : MapperState := ⟨[demoMount], []⟩

/-- FUSE-typed filesystem on which every `lstat` fails. -/
def fuseStatfsOnlyFs : Fs :=
  { statfs := fun _ => some FUSE_SUPER_MAGIC
    lstat := fun _ => none
    readdir := fun _ => none }

/-- FUSE-typed filesystem on which every path is a non-regular file. -/
def fuseNotRegFs : Fs :=
  { statfs := fun _ => some FUSE_SUPER_MAGIC
    lstat := fun _ => some (false, 5)
    readdir := fun _ => none }

/-- FUSE-typed filesystem where `/m/a/b` lstats fine but its parent does
not: the inode trace cannot be built. -/
def fuseCrashFs : Fs :=
  { statfs := fun _ => some FUSE_SUPER_MAGIC
    lstat := fun q =>
      if q = ['/', 'm', '/', 'a', '/', 'b'] then some (true, 42) else none
    readdir := fun _ => none }

/-- FUSE-typed filesystem where every lstat is the regular file inode 42
but no directory can be opened: the backing walk misses. -/
def fuseWalkMissFs : Fs :=
  { statfs := fun _ => some FUSE_SUPER_MAGIC
    lstat := fun _ => some (true, 42)
    readdir := fun _ => none }

/-- Witness for C1 amended at concrete filesystems: statfs failure (NULL),
non-FUSE type, no matching mount, lstat failure, non-regular file, failed
trace (crash), and backing-walk miss. -/
theorem C1_resolve_fallback_witness :
    encfs_mapper_resolve_path failStatfsFs ⟨[], []⟩ ['a'] =
      (.nullp, ⟨[], []⟩) ∧
    encfs_mapper_resolve_path nonFuseFs ⟨[], []⟩ ['a'] =
      (.path ['a'], ⟨[], []⟩) ∧
    encfs_mapper_resolve_path fuseStatfsOnlyFs ⟨[], []⟩ ['a'] =
      (.path ['a'], ⟨[], []⟩) ∧
    encfs_mapper_resolve_path fuseStatfsOnlyFs demoSt ['/', 'm', '/', 'a'] =
      (.path ['/', 'm', '/', 'a'], demoSt) ∧
    encfs_mapper_resolve_path fuseNotRegFs demoSt ['/', 'm', '/', 'a'] =
      (.path ['/', 'm', '/', 'a'], demoSt) ∧
    (encfs_mapper_resolve_path fuseCrashFs demoSt
      ['/', 'm', '/', 'a', '/', 'b']).1 = .crash ∧
    encfs_mapper_resolve_path fuseWalkMissFs demoSt ['/', 'm', '/', 'a'] =
      (.path ['/', 'm', '/', 'a'], { demoSt with inode_to_path_map :=
        (follow_inode_trace fuseWalkMissFs [42] demoMount.encfs_back
          demoSt.inode_to_path_map).2 }) :=
  ⟨(C1_resolve_fallback failStatfsFs ⟨[], []⟩ ['a']).1 rfl,
   (C1_resolve_fallback nonFuseFs ⟨[], []⟩ ['a']).2.1 0x1234 rfl (by decide),
   (C1_resolve_fallback fuseStatfsOnlyFs ⟨[], []⟩ ['a']).2.2.1 rfl rfl,
   (C1_resolve_fallback fuseStatfsOnlyFs demoSt
     ['/', 'm', '/', 'a']).2.2.2.1 demoMount rfl rfl rfl,
   (C1_resolve_fallback fuseNotRegFs demoSt
     ['/', 'm', '/', 'a']).2.2.2.2.1 demoMount 5 rfl rfl rfl,
   (C1_resolve_fallback fuseCrashFs demoSt
     ['/', 'm', '/', 'a', '/', 'b']).2.2.2.2.2.1 demoMount 42 rfl rfl rfl
     rfl rfl,
   (C1_resolve_fallback fuseWalkMissFs demoSt
     ['/', 'm', '/', 'a']).2.2.2.2.2.2 demoMount 42 [42] rfl rfl rfl rfl
     rfl rfl⟩
